import Mathlib

/-!
Shallow embedding of the categorization audit engine
(`scripts/audit_categorization.py`): the rule table, case-insensitive
substring matching, grouping of catalog rows by category, per-category
correct counts and mismatch suggestions, alignment percentages, and
deduplication of mismatches by item name.

Strings are modelled as Lean `String`; Python's `pat in s` substring test
is `pyIn`, `str.lower()` is `pyLower`, Python dicts (which preserve
insertion order) are association lists, and the `KeyError` raised by
`row['Category']` / `row['Product Name']` on a missing field is modelled
by `Except Unit`. Percentages are rationals.
-/

namespace CatAudit

/-- Does `p` occur as a prefix of `s`? (char-list version of Python's
`s.startswith(p)`, used to define substring containment). -/
def strStartsWith : List Char → List Char → Bool
  | _, [] => true
  | [], _ :: _ => false
  | c :: cs, p :: ps => c == p && strStartsWith cs ps

/-- Substring containment on char lists: Python's `pat in s` for strings. -/
def strContains : List Char → List Char → Bool
  | [], pat => pat.isEmpty
  | c :: cs, pat => strStartsWith (c :: cs) pat || strContains cs pat

/-- Python's `pat in s` on `String`. -/
def pyIn (pat s : String) : Bool := strContains s.data pat.data

/-- Python's `s.lower()` (ASCII, which covers the rule table). -/
def pyLower (s : String) : String := String.mk (s.data.map Char.toLower)

/-- A potential-mismatch record: the item name, the category it currently
carries, and the suggested category (`{"item": ..., "current": ...,
"suggested": ...}` in the source). -/
structure Mismatch where
  item : String
  current : String
  suggested : String
deriving DecidableEq, Repr

/-- The hand-curated rule table of the audit script (`rules` in the
source), in definition order: Python dicts iterate in insertion order. -/
def rules : List (String × List String) :=
  [ ("Beverages", ["Tea", "Coffee", "Juice", "Drink", "Water", "Mojito", "Cosmopolitan", "Milkshake", "Aamras", "Cola", "Soda", "Bev"]),
    ("Foodgrains, Oil & Masala", ["Rice", "Atta", "Flour", "Dal", "Masala", "Powder", "Oil", "Salt", "Garam Masala", "Sugar", "Saffron", "Turmeric", "Pepper", "Dalia", "Tamarind", "Asafoetida", "Basmati", "Cumin"]),
    ("Beauty & Hygiene", ["Soap", "Wash", "Shampoo", "Face", "Cream", "Oil", "Perfume", "Deoforant", "Toothpaste", "Scrub", "Lotion", "Gel", "Mask", "Sanitizer", "Conditioner", "Lip", "Serum", "Razor", "Blade", "Brush"]),
    ("Cleaning & Household", ["Cleaner", "Detergent", "Bucket", "Fragrance", "Freshener", "Mop", "Broom", "Wipes", "Dishwash", "Umbrella", "Notebook", "Pencil", "Bag", "Hook", "Stationery", "Battery", "Folder"]),
    ("Snacks & Branded Foods", ["Chips", "Biscuit", "Noodles", "Jam", "Mix", "Papad", "Chocolate", "Honey", "Pickle", "Popcorn", "Candy", "Muesli", "Dosa", "Idly", "Wafer", "Makhana"]),
    ("Kitchen, Garden & Pets", ["Bottle", "Steel", "Bowl", "Container", "Glass", "Pan", "Knife", "Cooker", "Plate", "Mug", "Cat", "Dog", "Pet", "Lead", "Brush", "Tiffin", "Flask", "Vati", "Dabba", "Tumbler"]),
    ("Bakery, Cakes & Dairy", ["Cheese", "Batter", "Yogurt", "Milk", "Bread", "Cake", "Butter", "Paneer", "Muffin", "Milkshake"]),
    ("Fruits & Vegetables", ["Fresho", "Onion", "Garlic", "Lemon", "Cabbage", "Brinjal", "Avocado", "Ginger", "Chilli", "Tomato", "Potato", "Pumpkin"]),
    ("Eggs, Meat & Fish", ["Prawns", "Salmon", "Chicken", "Pork", "Crab", "Sausage", "Salami", "Fish"]),
    ("Baby Care", ["Diaper", "Baby", "Kids", "Mothercare", "Huggies", "Pampers", "New Born"]),
    ("Gourmet & World Food", ["Olive", "Pasta", "Sauce", "Granola", "Blue Tea", "Coffee Roasters", "Muesli", "Sushi", "Wasabi", "Vinegar", "Tahini", "Jars"]) ]

/-- `rules.get(cat, [])` in the source: keyword-list lookup by exact,
case-sensitive category name, empty for unknown categories. -/
def rulesGet (cat : String) : List String :=
  match rules.find? (fun p => p.1 == cat) with
  | some p => p.2
  | none => []

/-- `any(rule.lower() in name_lower for rule in rs)` in the source. -/
def anyRuleMatches (rs : List String) (nameLower : String) : Bool :=
  rs.any (fun r => pyIn (pyLower r) nameLower)

/-- The Matcher of the spec: does `name` lexically match category `cat`
under the rule table? -/
def matchesCat (name cat : String) : Bool :=
  anyRuleMatches (rulesGet cat) (pyLower name)

/-- The inner `for other_cat, other_rules in rules.items()` loop of the
source: first category in `l`, different from `cat`, whose keyword list
matches the lower-cased name `nl`. -/
def findSuggestionIn (cat nl : String) : List (String × List String) → Option String
  | [] => none
  | (oc, ors) :: rest =>
    if oc == cat then findSuggestionIn cat nl rest
    else if anyRuleMatches ors nl then some oc
    else findSuggestionIn cat nl rest

/-- The suggestion scan over the whole rule table. -/
def findSuggestion (cat nl : String) : Option String :=
  findSuggestionIn cat nl rules

/-- The per-group loop of the source (`for name in items`): returns the
`correct_count` for the group and the mismatch records appended for it,
in item order. `catRules` is `rules.get(cat, [])`, computed once per
group in the source. -/
def auditGroup (cat : String) (catRules : List String) : List String → Nat × List Mismatch
  | [] => (0, [])
  | name :: rest =>
    let nl := pyLower name
    let r := auditGroup cat catRules rest
    if anyRuleMatches catRules nl then
      (r.1 + 1, r.2)
    else
      match findSuggestion cat nl with
      | some oc => (r.1, { item := name, current := cat, suggested := oc } :: r.2)
      | none => r

/-- `(correct_count / len(items)) * 100 if items else 0` in the source. -/
def groupScore (correct : Nat) (items : List String) : ℚ :=
  if items.isEmpty then 0 else ((correct : ℚ) / (items.length : ℚ)) * 100

/-- The outer `for cat, items in categories.items()` loop: the per-category
health scores (in grouping order) and the raw, pre-deduplication mismatch
list (in traversal order). -/
def auditCats : List (String × List String) → List (String × ℚ) × List Mismatch
  | [] => ([], [])
  | (cat, items) :: rest =>
    let g := auditGroup cat (rulesGet cat) items
    let r := auditCats rest
    ((cat, groupScore g.1 items) :: r.1, g.2 ++ r.2)

/-- The dedup loop of the source (`seen` set, first occurrence wins). -/
def dedupMismatches (seen : List String) : List Mismatch → List Mismatch
  | [] => []
  | m :: ms =>
    if seen.contains m.item then dedupMismatches seen ms
    else m :: dedupMismatches (m.item :: seen) ms

/-- A raw catalog row as yielded by the tabular-data collaborator: either
field may be missing (Python raises `KeyError` on access then). -/
structure Row where
  productName : Option String
  category : Option String
deriving DecidableEq, Repr

/-- A well-formed catalog item. -/
structure Item where
  name : String
  category : String
deriving DecidableEq, Repr

/-- One step of the grouping loop: `categories[cat].append(name)`,
creating the key at the end on first appearance (Python dict insertion
order). -/
def addItem : List (String × List String) → String → String → List (String × List String)
  | [], cat, name => [(cat, [name])]
  | (c, ns) :: rest, cat, name =>
    if c == cat then (c, ns ++ [name]) :: rest
    else (c, ns) :: addItem rest cat name

/-- The grouping loop over raw rows: `cat = p['Category']` then
`categories[cat].append(p['Product Name'])`; a missing field raises, which
we model as `Except.error ()`. -/
def groupRowsAux (acc : List (String × List String)) : List Row → Except Unit (List (String × List String))
  | [] => Except.ok acc
  | r :: rs =>
    match r.category with
    | none => Except.error ()
    | some cat =>
      match r.productName with
      | none => Except.error ()
      | some name => groupRowsAux (addItem acc cat name) rs

/-- Grouping of well-formed items (the same loop, fields always present). -/
def groupItemsAux (acc : List (String × List String)) : List Item → List (String × List String)
  | [] => acc
  | it :: its => groupItemsAux (addItem acc it.category it.name) its

/-- The Category Grouper on well-formed items. -/
def groupItems (items : List Item) : List (String × List String) :=
  groupItemsAux [] items

/-- The audit's outputs: per-category scores and the deduplicated
mismatch list. -/
structure AuditResult where
  scores : List (String × ℚ)
  mismatches : List Mismatch
deriving DecidableEq, Repr

/-- The whole engine, `audit_categorization` in the source (file I/O and
printing stripped): group rows, audit each group, dedup mismatches. -/
def audit_categorization (rows : List Row) : Except Unit AuditResult :=
  match groupRowsAux [] rows with
  | Except.error e => Except.error e
  | Except.ok cats =>
    let r := auditCats cats
    Except.ok { scores := r.1, mismatches := dedupMismatches [] r.2 }

/-- Spec-side formulation of the suggestion rule: the first entry of the
rule table, in definition order, whose key differs from `cat` and whose
keyword list matches the lower-cased name `nl`. -/
def firstMatchIn (cat nl : String) (l : List (String × List String)) : Option String :=
  ((l.filter (fun p => p.1 != cat && anyRuleMatches p.2 nl)).head?).map Prod.fst

/-- Spec-side per-item mismatch rule: a record iff the name does not match
its own category and some other category matches; the suggestion is the
first such category in table order. -/
def itemMismatch (cat name : String) : Option Mismatch :=
  if matchesCat name cat then none
  else (firstMatchIn cat (pyLower name) rules).map
    (fun oc => { item := name, current := cat, suggested := oc })

/-- First-appearance-order deduplication of a string list (used to state
the grouping order of the partition). -/
def dedupFA (seen : List String) : List String → List String
  | [] => []
  | c :: cs => if seen.contains c then dedupFA seen cs else c :: dedupFA (c :: seen) cs

/-- Association-list lookup used to state properties of the grouping. -/
def lookupNs (acc : List (String × List String)) (c : String) : Option (List String) :=
  (acc.find? (fun p => p.1 == c)).map Prod.snd

/-- The suggestion loop returns the first rule-table entry, in order, that
is a different category and lexically matches. -/
theorem findSuggestionIn_eq (cat nl : String) (l : List (String × List String)) :
    findSuggestionIn cat nl l = firstMatchIn cat nl l := by
  induction l with
  | nil => rfl
  | cons p rest ih =>
    obtain ⟨oc, ors⟩ := p
    by_cases h1 : oc = cat
    · subst h1
      rw [findSuggestionIn, if_pos (by simp), ih, firstMatchIn, firstMatchIn,
        List.filter_cons_of_neg (by simp)]
    · by_cases h2 : anyRuleMatches ors nl = true
      · rw [findSuggestionIn, if_neg (by simp [h1]), if_pos h2, firstMatchIn,
          List.filter_cons_of_pos (by simp [h1, h2])]
        rfl
      · rw [findSuggestionIn, if_neg (by simp [h1]), if_neg h2, ih, firstMatchIn, firstMatchIn,
          List.filter_cons_of_neg (by simp [h2])]

/-- Characterization of the per-group loop: the correct count is the
number of members matching their own category, and the mismatch records
are the per-item spec rule, mapped over the members in order. -/
theorem auditGroup_eq (cat : String) (items : List String) :
    auditGroup cat (rulesGet cat) items =
      ((items.filter (fun n => matchesCat n cat)).length,
       items.filterMap (itemMismatch cat)) := by
  induction items with
  | nil => rfl
  | cons name rest ih =>
    rw [auditGroup, ih,
      show anyRuleMatches (rulesGet cat) (pyLower name) = matchesCat name cat from rfl]
    by_cases h : matchesCat name cat = true
    · rw [if_pos h, List.filter_cons_of_pos (by simpa using h),
        List.filterMap_cons_none (by simp [itemMismatch, h])]
      simp
    · rw [if_neg (by simpa using h), List.filter_cons_of_neg (by simpa using h),
        List.filterMap_cons]
      have hs : findSuggestion cat (pyLower name) = firstMatchIn cat (pyLower name) rules :=
        findSuggestionIn_eq cat (pyLower name) rules
      rw [hs]
      have hi : itemMismatch cat name =
          (firstMatchIn cat (pyLower name) rules).map
            (fun oc => { item := name, current := cat, suggested := oc }) := by
        rw [itemMismatch, if_neg h]
      rw [hi]
      cases hfm : firstMatchIn cat (pyLower name) rules <;> simp

/-- C1: for every item, a (pre-deduplication) Mismatch record is produced
iff the item's name does not match its own category's keyword set and some
other category's keyword set matches it; the suggested category is then
the first category in rule-table definition order, skipping the item's
current category, whose keyword set matches the name; items matching no
category produce no Mismatch and no correct-count increment. -/
theorem mismatch_record_iff_foreign_match (cat : String) (items : List String) :
    (auditGroup cat (rulesGet cat) items).2 = items.filterMap (fun name =>
        if matchesCat name cat then none
        else ((rules.filter
            (fun p => p.1 != cat && anyRuleMatches p.2 (pyLower name))).head?).map
          (fun p => { item := name, current := cat, suggested := p.1 }))
    ∧ (auditGroup cat (rulesGet cat) items).1 =
        (items.filter (fun n => matchesCat n cat)).length := by
  rw [auditGroup_eq]
  refine ⟨?_, rfl⟩
  refine congrArg (fun f => items.filterMap f) (funext fun name => ?_)
  by_cases h : matchesCat name cat = true
  · simp [itemMismatch, h]
  · simp only [itemMismatch, if_neg h, firstMatchIn, Option.map_map, eq_self_iff_true]
    rfl

/-- C3: the Matcher returns true iff some keyword of the category's rule
set, lower-cased, is a substring of the lower-cased name; a category with
no rule-table entry has the empty keyword set and never matches. -/
theorem matcher_iff_keyword_substring (name cat : String) :
    (matchesCat name cat = true ↔
      ∃ kw, kw ∈ rulesGet cat ∧ pyIn (pyLower kw) (pyLower name) = true)
    ∧ (rules.find? (fun p => p.1 == cat) = none →
        rulesGet cat = [] ∧ matchesCat name cat = false) := by
  constructor
  · simp [matchesCat, anyRuleMatches, List.any_eq_true]
  · intro h
    have he : rulesGet cat = [] := by rw [rulesGet, h]
    exact ⟨he, by rw [matchesCat, he]; rfl⟩

/-- Witness for C3 at a concrete unknown category. -/
theorem matcher_iff_keyword_substring_w :
    rules.find? (fun p => p.1 == "Stationery & Games") = none ∧
    (rulesGet "Stationery & Games" = [] ∧
      matchesCat "Classmate Notebook" "Stationery & Games" = false) :=
  ⟨by decide,
   (matcher_iff_keyword_substring "Classmate Notebook" "Stationery & Games").2 (by decide)⟩

/-- C5: each category's alignment score is 100 * correct / members, with
an empty member list guarded to score 0 instead of a division. -/
theorem alignment_score_formula (cats : List (String × List String)) :
    (auditCats cats).1 = cats.map (fun p =>
      (p.1, if p.2 = [] then (0 : ℚ)
            else 100 * (((auditGroup p.1 (rulesGet p.1) p.2).1 : ℚ) / (p.2.length : ℚ)))) := by
  induction cats with
  | nil => rfl
  | cons p rest ih =>
    obtain ⟨cat, items⟩ := p
    rw [auditCats]
    simp only [List.map_cons, ih]
    refine congrArg (fun x => x :: _) ?_
    refine congrArg (fun q => (cat, q)) ?_
    by_cases h : items = []
    · simp [groupScore, h]
    · rw [groupScore, if_neg (by simpa [List.isEmpty_iff] using h), if_neg h]
      ring

/-- Every occurrence of a self-matching name is among the counted ones. -/
theorem count_le_filter_matches (cat name : String) (h : matchesCat name cat = true)
    (items : List String) :
    items.count name ≤ (items.filter (fun n => matchesCat n cat)).length := by
  rw [← List.countP_eq_length_filter, List.count_eq_countP]
  refine List.countP_mono_left fun x _ hx => ?_
  have hxn : x = name := by simpa using hx
  subst hxn
  simpa using h

/-- A produced per-item record carries the item's own name, and only
exists when the own-category check failed. -/
theorem itemMismatch_sound (cat a : String) (m : Mismatch)
    (h : itemMismatch cat a = some m) : m.item = a ∧ matchesCat a cat = false := by
  rw [itemMismatch] at h
  by_cases hma : matchesCat a cat = true
  · rw [if_pos hma] at h
    simp at h
  · rw [if_neg hma] at h
    refine ⟨?_, by simpa using hma⟩
    cases hfm : firstMatchIn cat (pyLower a) rules <;> rw [hfm] at h
    · simp at h
    · simp only [Option.map] at h
      injection h with h2
      rw [← h2]

/-- C2: an item whose name case-insensitively contains one of its own
category's keywords is counted toward that category's correct counter and
never yields a Mismatch record, even if a foreign category also matches
(the own-category check short-circuits the foreign scan). -/
theorem self_match_counts_and_no_mismatch (cat name : String) (items : List String)
    (h : matchesCat name cat = true) :
    (∀ m, m ∈ (auditGroup cat (rulesGet cat) items).2 → m.item ≠ name)
    ∧ items.count name ≤ (auditGroup cat (rulesGet cat) items).1 := by
  rw [auditGroup_eq]
  refine ⟨fun m hm heq => ?_, count_le_filter_matches cat name h items⟩
  simp only [List.mem_filterMap] at hm
  obtain ⟨a, _, ha⟩ := hm
  obtain ⟨hia, hma⟩ := itemMismatch_sound cat a m ha
  rw [heq] at hia
  rw [← hia, h] at hma
  cases hma

/-- Witness for C2 at a concrete self-matching item. -/
theorem self_match_counts_and_no_mismatch_w :
    matchesCat "Green Tea" "Beverages" = true
    ∧ ((∀ m, m ∈ (auditGroup "Beverages" (rulesGet "Beverages") ["Green Tea"]).2 →
          m.item ≠ "Green Tea")
       ∧ List.count "Green Tea" ["Green Tea"] ≤
          (auditGroup "Beverages" (rulesGet "Beverages") ["Green Tea"]).1) :=
  ⟨by decide,
   self_match_counts_and_no_mismatch "Beverages" "Green Tea" ["Green Tea"] (by decide)⟩

/-- The correct count never exceeds the group size. -/
theorem correct_le_length (cat : String) (items : List String) :
    (auditGroup cat (rulesGet cat) items).1 ≤ items.length := by
  rw [auditGroup_eq]
  exact List.length_filter_le _ _

/-- The score of a group whose correct count is at most its size is
between 0 and 100. -/
theorem groupScore_bounds (c : Nat) (items : List String) (h : c ≤ items.length) :
    0 ≤ groupScore c items ∧ groupScore c items ≤ 100 := by
  rw [groupScore]
  by_cases he : items.isEmpty = true
  · rw [if_pos he]
    norm_num
  · rw [if_neg he]
    have hl : 0 < items.length := by
      cases items with
      | nil => simp at he
      | cons a l => simp
    have hq : (0:ℚ) < (items.length : ℚ) := by exact_mod_cast hl
    refine ⟨by positivity, ?_⟩
    have h1 : (c : ℚ) / (items.length : ℚ) ≤ 1 := by
      rw [div_le_one hq]
      exact_mod_cast h
    calc (c : ℚ) / (items.length : ℚ) * 100 ≤ 1 * 100 :=
          mul_le_mul_of_nonneg_right h1 (by norm_num)
      _ = 100 := by norm_num

/-- C6: every computed alignment percentage lies in [0, 100]. -/
theorem alignment_score_bounds (cats : List (String × List String)) (cat : String) (q : ℚ)
    (h : (cat, q) ∈ (auditCats cats).1) : 0 ≤ q ∧ q ≤ 100 := by
  induction cats with
  | nil => simp [auditCats] at h
  | cons p rest ih =>
    obtain ⟨c0, items⟩ := p
    rw [auditCats] at h
    rcases List.mem_cons.mp h with h1 | h1
    · have hq : q = groupScore (auditGroup c0 (rulesGet c0) items).1 items :=
        congrArg Prod.snd h1
      rw [hq]
      exact groupScore_bounds _ _ (correct_le_length c0 items)
    · exact ih h1

/-- Witness for C6 at a concrete one-item catalog. -/
theorem alignment_score_bounds_w :
    ("Beverages", (100:ℚ)) ∈ (auditCats [("Beverages", ["Green Tea"])]).1
    ∧ (0 ≤ (100:ℚ) ∧ (100:ℚ) ≤ 100) := by
  have h3 : (auditGroup "Beverages" (rulesGet "Beverages") ["Green Tea"]).1 = 1 := by decide
  have h2 : groupScore (auditGroup "Beverages" (rulesGet "Beverages") ["Green Tea"]).1
      ["Green Tea"] = 100 := by
    rw [h3]
    norm_num [groupScore]
  have h1 : (auditCats [("Beverages", ["Green Tea"])]).1
      = [("Beverages",
          groupScore (auditGroup "Beverages" (rulesGet "Beverages") ["Green Tea"]).1
            ["Green Tea"])] := rfl
  rw [h2] at h1
  have hmem : ("Beverages", (100:ℚ)) ∈ (auditCats [("Beverages", ["Green Tea"])]).1 := by
    rw [h1]
    exact List.mem_cons_self _ _
  exact ⟨hmem, alignment_score_bounds [("Beverages", ["Green Tea"])] "Beverages" 100 hmem⟩

/-- Every record kept by the dedup loop has a name outside `seen` and is
the first record with that name in the scanned list. -/
theorem dedupMismatches_first (ms : List Mismatch) :
    ∀ seen, ∀ m ∈ dedupMismatches seen ms,
      seen.contains m.item = false ∧ ms.find? (fun x => x.item == m.item) = some m := by
  induction ms with
  | nil => intro seen m hm; simp [dedupMismatches] at hm
  | cons m0 ms ih =>
    intro seen m hm
    rw [dedupMismatches] at hm
    by_cases h0 : seen.contains m0.item = true
    · rw [if_pos h0] at hm
      obtain ⟨h1, h2⟩ := ih seen m hm
      have hne : (m0.item == m.item) = false := by
        cases hb : m0.item == m.item
        · rfl
        · have heq2 : m0.item = m.item := by simpa using hb
          rw [heq2] at h0
          rw [h0] at h1
          exact h1
      rw [List.find?_cons, hne]
      exact ⟨h1, h2⟩
    · rw [if_neg h0] at hm
      rcases List.mem_cons.mp hm with h1 | h1
      · subst h1
        refine ⟨by simpa using h0, ?_⟩
        rw [List.find?_cons_of_pos _ (by simp)]
      · obtain ⟨h1a, h2⟩ := ih (m0.item :: seen) m h1
        rw [List.contains_cons] at h1a
        have hni : (m.item == m0.item) = false := by
          cases hb : m.item == m0.item
          · rfl
          · rw [hb] at h1a; simp at h1a
        have hns : seen.contains m.item = false := by
          cases hb : seen.contains m.item
          · rfl
          · rw [hb] at h1a; simp at h1a
        have hne : (m0.item == m.item) = false := by
          cases hb : m0.item == m.item
          · rfl
          · have : m0.item = m.item := by simpa using hb
            rw [← this] at hni
            simp at hni
        rw [List.find?_cons, hne]
        exact ⟨hns, h2⟩

/-- The dedup loop keeps at most one record per item name. -/
theorem dedupMismatches_nodup (ms : List Mismatch) :
    ∀ seen, ((dedupMismatches seen ms).map Mismatch.item).Nodup := by
  induction ms with
  | nil => intro seen; simp [dedupMismatches]
  | cons m0 ms ih =>
    intro seen
    rw [dedupMismatches]
    by_cases h0 : seen.contains m0.item = true
    · rw [if_pos h0]
      exact ih seen
    · rw [if_neg h0]
      rw [List.map_cons, List.nodup_cons]
      refine ⟨?_, ih (m0.item :: seen)⟩
      intro hmem
      obtain ⟨m, hm, hitem⟩ := List.mem_map.mp hmem
      obtain ⟨h1, _⟩ := dedupMismatches_first ms (m0.item :: seen) m hm
      rw [List.contains_cons, hitem] at h1
      simp at h1

/-- Each scanned record's name survives deduplication (unless already
seen). -/
theorem dedupMismatches_covers (ms : List Mismatch) :
    ∀ seen, ∀ m ∈ ms, seen.contains m.item = true ∨
      ∃ m2 ∈ dedupMismatches seen ms, m2.item = m.item := by
  induction ms with
  | nil => intro seen m hm; simp at hm
  | cons m0 ms ih =>
    intro seen m hm
    rw [dedupMismatches]
    rcases List.mem_cons.mp hm with h1 | h1
    · subst h1
      by_cases h0 : seen.contains m.item = true
      · exact Or.inl h0
      · rw [if_neg h0]
        exact Or.inr ⟨m, List.mem_cons_self _ _, rfl⟩
    · by_cases h0 : seen.contains m0.item = true
      · rw [if_pos h0]
        exact ih seen m h1
      · rw [if_neg h0]
        rcases ih (m0.item :: seen) m h1 with h2 | h2
        · rw [List.contains_cons] at h2
          rcases Bool.or_eq_true_iff.mp h2 with h3 | h3
          · have : m.item = m0.item := by simpa using h3
            exact Or.inr ⟨m0, List.mem_cons_self _ _, this.symm⟩
          · exact Or.inl h3
        · obtain ⟨m2, hm2, hi2⟩ := h2
          exact Or.inr ⟨m2, List.mem_cons_of_mem _ hm2, hi2⟩

/-- C4: the final mismatch list has at most one entry per distinct item
name; among records sharing a name, exactly the first in traversal order
is kept. -/
theorem mismatch_dedup_first_occurrence (cats : List (String × List String)) :
    ((dedupMismatches [] (auditCats cats).2).map Mismatch.item).Nodup
    ∧ (∀ m ∈ dedupMismatches [] (auditCats cats).2,
        (auditCats cats).2.find? (fun x => x.item == m.item) = some m)
    ∧ (∀ m ∈ (auditCats cats).2,
        ∃ m2 ∈ dedupMismatches [] (auditCats cats).2, m2.item = m.item) := by
  refine ⟨dedupMismatches_nodup _ [], fun m hm => (dedupMismatches_first _ [] m hm).2,
    fun m hm => ?_⟩
  rcases dedupMismatches_covers (auditCats cats).2 [] m hm with h | h
  · simp at h
  · exact h

/-- If any raw row lacks a field, the grouping pass raises. -/
theorem groupRowsAux_error (rows : List Row)
    (h : ∃ r ∈ rows, r.productName = none ∨ r.category = none) :
    ∀ acc, groupRowsAux acc rows = Except.error () := by
  induction rows with
  | nil => simp at h
  | cons r rs ih =>
    intro acc
    obtain ⟨r0, hr0, hbad⟩ := h
    rw [groupRowsAux]
    rcases List.mem_cons.mp hr0 with h1 | h1
    · subst h1
      rcases hbad with hb | hb
      · cases hc : r0.category
        · rfl
        · rw [hb]
      · rw [hb]
    · cases hc : r.category
      · rfl
      · cases hn : r.productName
        · rfl
        · exact ih ⟨r0, h1, hbad⟩ (addItem acc _ _)

/-- C8: a catalog row missing its name or category field makes the audit
surface an error to the caller, with no partial score or mismatch
results. -/
theorem missing_field_fails_fast (rows : List Row)
    (h : ∃ r ∈ rows, r.productName = none ∨ r.category = none) :
    audit_categorization rows = Except.error () := by
  rw [audit_categorization, groupRowsAux_error rows h []]

/-- Witness for C8 at a concrete row lacking its name field. -/
theorem missing_field_fails_fast_w :
    (∃ r ∈ [Row.mk none (some "Beverages")], r.productName = none ∨ r.category = none)
    ∧ audit_categorization [Row.mk none (some "Beverages")] = Except.error () :=
  ⟨⟨Row.mk none (some "Beverages"), List.mem_cons_self _ _, Or.inl rfl⟩,
   missing_field_fails_fast [Row.mk none (some "Beverages")]
     ⟨Row.mk none (some "Beverages"), List.mem_cons_self _ _, Or.inl rfl⟩⟩

/-- C9: the audit is deterministic: the same row list, in the same order,
yields identical scores and an identical, identically ordered mismatch
list. -/
theorem audit_deterministic (rows1 rows2 : List Row) (h : rows1 = rows2) :
    audit_categorization rows1 = audit_categorization rows2 := by
  rw [h]

/-- Witness for C9 at a concrete catalog. -/
theorem audit_deterministic_w :
    [Row.mk (some "Green Tea") (some "Beverages")] =
      [Row.mk (some "Green Tea") (some "Beverages")]
    ∧ audit_categorization [Row.mk (some "Green Tea") (some "Beverages")] =
        audit_categorization [Row.mk (some "Green Tea") (some "Beverages")] :=
  ⟨rfl, audit_deterministic [Row.mk (some "Green Tea") (some "Beverages")]
    [Row.mk (some "Green Tea") (some "Beverages")] rfl⟩

/-- C10: rule-table lookup is exact and case-sensitive: a category that
equals no rule-table key (even one differing only in letter case) has an
empty keyword set, so its items are never counted correct and every item
is scanned against the other categories for a suggestion. -/
theorem rule_lookup_case_sensitive (cat : String)
    (h : rules.all (fun p => p.1 != cat) = true) :
    rulesGet cat = []
    ∧ ∀ items : List String,
        (auditGroup cat (rulesGet cat) items).1 = 0
        ∧ (auditGroup cat (rulesGet cat) items).2 = items.filterMap (fun name =>
            (firstMatchIn cat (pyLower name) rules).map
              (fun oc => { item := name, current := cat, suggested := oc })) := by
  have hget : rulesGet cat = [] := by
    rw [rulesGet]
    have hn : rules.find? (fun p => p.1 == cat) = none := by
      rw [List.find?_eq_none]
      intro p hp
      have := List.all_eq_true.mp h p hp
      simpa using this
    rw [hn]
  have hfalse : ∀ name, matchesCat name cat = false := by
    intro name
    rw [matchesCat, hget]
    rfl
  refine ⟨hget, fun items => ?_⟩
  rw [auditGroup_eq]
  constructor
  · simp only [List.length_eq_zero]
    rw [List.filter_eq_nil_iff]
    intro a _
    simp [hfalse a]
  · refine congrArg (fun f => items.filterMap f) (funext fun name => ?_)
    rw [itemMismatch, if_neg (by simp [hfalse name])]

/-- Witness for C10 at the lower-cased category name "beverages". -/
theorem rule_lookup_case_sensitive_w :
    rules.all (fun p => p.1 != "beverages") = true
    ∧ rulesGet "beverages" = []
    ∧ (auditGroup "beverages" (rulesGet "beverages") ["Green Tea"]).1 = 0
    ∧ (auditGroup "beverages" (rulesGet "beverages") ["Green Tea"]).2 =
        List.filterMap (fun name =>
            (firstMatchIn "beverages" (pyLower name) rules).map
              (fun oc => { item := name, current := "beverages", suggested := oc }))
          ["Green Tea"] :=
  ⟨by decide, (rule_lookup_case_sensitive "beverages" (by decide)).1,
   ((rule_lookup_case_sensitive "beverages" (by decide)).2 ["Green Tea"]).1,
   ((rule_lookup_case_sensitive "beverages" (by decide)).2 ["Green Tea"]).2⟩

/-- Membership testing distributes over list concatenation. -/
theorem contains_append (l1 l2 : List String) (a : String) :
    (l1 ++ l2).contains a = (l1.contains a || l2.contains a) := by
  rw [List.contains_eq_any_beq, List.contains_eq_any_beq, List.contains_eq_any_beq,
    List.any_append]

/-- `dedupFA` only depends on the membership behaviour of `seen`. -/
theorem dedupFA_congr (l : List String) :
    ∀ s1 s2, (∀ c, s1.contains c = s2.contains c) → dedupFA s1 l = dedupFA s2 l := by
  induction l with
  | nil => intro s1 s2 _; rfl
  | cons c cs ih =>
    intro s1 s2 h
    rw [dedupFA, dedupFA, h c]
    by_cases hc : s2.contains c = true
    · rw [if_pos hc, if_pos hc]
      exact ih s1 s2 h
    · rw [if_neg hc, if_neg hc]
      refine congrArg (fun x => c :: x) (ih (c :: s1) (c :: s2) fun x => ?_)
      rw [List.contains_cons, List.contains_cons, h x]

/-- `dedupFA` avoids `seen` and produces no duplicates. -/
theorem dedupFA_spec (l : List String) :
    ∀ seen, (∀ c ∈ dedupFA seen l, seen.contains c = false) ∧ (dedupFA seen l).Nodup := by
  induction l with
  | nil => intro seen; simp [dedupFA]
  | cons c cs ih =>
    intro seen
    rw [dedupFA]
    by_cases h : seen.contains c = true
    · rw [if_pos h]
      exact ih seen
    · rw [if_neg h]
      obtain ⟨h1, h2⟩ := ih (c :: seen)
      constructor
      · intro x hx
        rcases List.mem_cons.mp hx with hx1 | hx1
        · subst hx1
          simpa using h
        · have hx2 := h1 x hx1
          rw [List.contains_cons] at hx2
          cases hb : seen.contains x
          · rfl
          · rw [hb] at hx2
            simp at hx2
      · rw [List.nodup_cons]
        refine ⟨fun hmem => ?_, h2⟩
        have hc2 := h1 c hmem
        simp [List.contains_cons] at hc2

/-- Adding an item keeps existing keys, appending a new key at the end on
first appearance. -/
theorem addItem_keys (cat name : String) :
    ∀ acc : List (String × List String),
      (addItem acc cat name).map Prod.fst =
        if (acc.map Prod.fst).contains cat = true then acc.map Prod.fst
        else acc.map Prod.fst ++ [cat] := by
  intro acc
  induction acc with
  | nil =>
    rw [addItem]
    simp
  | cons p rest ih =>
    obtain ⟨c, ns⟩ := p
    by_cases h : c = cat
    · subst h
      rw [addItem, if_pos (by simp)]
      simp
    · rw [addItem, if_neg (by simp [h]), List.map_cons, List.map_cons, ih]
      by_cases hc : ((rest.map Prod.fst).contains cat) = true
      · rw [if_pos hc, if_pos (by rw [List.contains_cons, hc, Bool.or_true])]
      · have hneg : ¬ ((c :: rest.map Prod.fst).contains cat = true) := by
          rw [List.contains_cons]
          simp only [Bool.or_eq_true]
          rintro (h1 | h1)
          · exact h ((by simpa using h1 : cat = c)).symm
          · exact hc h1
        rw [if_neg hc, if_neg hneg, List.cons_append]

/-- `find?`-based lookup on a cons cell. -/
theorem lookupNs_cons (k : String) (ns : List String) (rest : List (String × List String))
    (c : String) :
    lookupNs ((k, ns) :: rest) c = if k = c then some ns else lookupNs rest c := by
  simp only [lookupNs, List.find?_cons]
  cases h : (k == c)
  · rw [if_neg (by simpa using h)]
  · rw [if_pos (by simpa using h)]
    rfl

/-- Adding an item appends its name to its category's member list and
leaves every other list unchanged. -/
theorem addItem_lookup (cat name c : String) :
    ∀ acc : List (String × List String),
      lookupNs (addItem acc cat name) c =
        if c = cat then some (((lookupNs acc cat).getD []) ++ [name]) else lookupNs acc c := by
  intro acc
  induction acc with
  | nil =>
    rw [addItem]
    by_cases h : c = cat
    · subst h
      rw [if_pos rfl, lookupNs_cons, if_pos rfl]
      simp [lookupNs]
    · rw [if_neg h, lookupNs_cons, if_neg (fun he => h he.symm)]
  | cons p rest ih =>
    obtain ⟨k, ms⟩ := p
    by_cases hk : k = cat
    · subst hk
      rw [addItem, if_pos (by simp)]
      by_cases h : c = k
      · subst h
        rw [if_pos rfl, lookupNs_cons, if_pos rfl, lookupNs_cons, if_pos rfl]
        simp
      · rw [if_neg h, lookupNs_cons, if_neg (fun he => h he.symm), lookupNs_cons,
          if_neg (fun he => h he.symm)]
    · rw [addItem, if_neg (by simp [hk])]
      by_cases h : c = k
      · subst h
        rw [lookupNs_cons, if_pos rfl, if_neg hk, lookupNs_cons, if_pos rfl]
      · rw [lookupNs_cons, if_neg (fun he => h he.symm), ih]
        by_cases h2 : c = cat
        · rw [if_pos h2, if_pos h2, lookupNs_cons, if_neg hk]
        · rw [if_neg h2, if_neg h2, lookupNs_cons, if_neg (fun he => h he.symm)]

/-- Adding an item grows the total member count by exactly one. -/
theorem addItem_total (cat name : String) :
    ∀ acc : List (String × List String),
      ((addItem acc cat name).map Prod.snd).flatten.length =
        ((acc.map Prod.snd).flatten.length) + 1 := by
  intro acc
  induction acc with
  | nil => simp [addItem]
  | cons p rest ih =>
    obtain ⟨k, ms⟩ := p
    by_cases h : k = cat
    · subst h
      rw [addItem, if_pos (by simp)]
      simp
      omega
    · rw [addItem, if_neg (by simp [h])]
      simp [ih]
      omega

/-- The grouping loop's keys are the previous keys followed by the input
categories in first-appearance order. -/
theorem groupItemsAux_keys (items : List Item) :
    ∀ acc, (groupItemsAux acc items).map Prod.fst =
      acc.map Prod.fst ++ dedupFA (acc.map Prod.fst) (items.map Item.category) := by
  induction items with
  | nil =>
    intro acc
    simp [groupItemsAux, dedupFA]
  | cons it its ih =>
    intro acc
    rw [groupItemsAux, ih, addItem_keys, List.map_cons, dedupFA]
    by_cases h : ((acc.map Prod.fst).contains it.category) = true
    · rw [if_pos h, if_pos h]
    · rw [if_neg h, if_neg h, List.append_assoc, List.singleton_append]
      refine congrArg (fun x => acc.map Prod.fst ++ (it.category :: x)) ?_
      refine dedupFA_congr _ _ _ fun x => ?_
      rw [contains_append, List.contains_cons, List.contains_cons]
      cases hx : x == it.category <;> cases hy : (acc.map Prod.fst).contains x <;>
        simp [hx, hy]

/-- Each category's member list after grouping is the previous members
followed by the names of the input items carrying that category, in input
order. -/
theorem groupItemsAux_lookup_getD (items : List Item) :
    ∀ acc c, (lookupNs (groupItemsAux acc items) c).getD [] =
      (lookupNs acc c).getD [] ++ (items.filter (fun it => it.category == c)).map Item.name := by
  induction items with
  | nil =>
    intro acc c
    simp [groupItemsAux]
  | cons it its ih =>
    intro acc c
    rw [groupItemsAux, ih, addItem_lookup]
    by_cases h : c = it.category
    · rw [if_pos h, List.filter_cons_of_pos (by simp [h]), List.map_cons]
      subst h
      simp
    · rw [if_neg h, List.filter_cons_of_neg (by simp; exact fun he => h he.symm)]

/-- The total number of grouped names equals the previous total plus the
number of items consumed. -/
theorem groupItemsAux_total (items : List Item) :
    ∀ acc, ((groupItemsAux acc items).map Prod.snd).flatten.length =
      ((acc.map Prod.snd).flatten.length) + items.length := by
  induction items with
  | nil =>
    intro acc
    simp [groupItemsAux]
  | cons it its ih =>
    intro acc
    rw [groupItemsAux, ih, addItem_total]
    simp
    omega

/-- With distinct keys, association-list membership determines lookup. -/
theorem mem_lookupNs_of_nodup (l : List (String × List String)) :
    (l.map Prod.fst).Nodup → ∀ c ns, (c, ns) ∈ l → lookupNs l c = some ns := by
  induction l with
  | nil =>
    intro _ c ns h
    simp at h
  | cons p rest ih =>
    intro hnd c ns hmem
    obtain ⟨k, ms⟩ := p
    rw [List.map_cons, List.nodup_cons] at hnd
    rcases List.mem_cons.mp hmem with h1 | h1
    · injection h1 with h1a h1b
      rw [lookupNs_cons, if_pos h1a.symm, h1b]
    · have hmm2 : c ∈ rest.map Prod.fst := List.mem_map_of_mem Prod.fst h1
      have hkc : ¬ k = c := fun he => hnd.1 (by rw [he]; exact hmm2)
      rw [lookupNs_cons, if_neg hkc]
      exact ih hnd.2 c ns h1

/-- C7: grouping is a stable partition: category keys are distinct and
appear in first-appearance order, each group's member list is exactly the
input items of that category in input order, and the groups together hold
every input item exactly once. -/
theorem grouping_stable_partition (items : List Item) :
    ((groupItems items).map Prod.fst).Nodup
    ∧ (groupItems items).map Prod.fst = dedupFA [] (items.map Item.category)
    ∧ (∀ c ns, (c, ns) ∈ groupItems items →
        ns = (items.filter (fun it => it.category == c)).map Item.name)
    ∧ ((groupItems items).map Prod.snd).flatten.length = items.length := by
  have hkeys : (groupItems items).map Prod.fst = dedupFA [] (items.map Item.category) := by
    rw [groupItems, groupItemsAux_keys]
    simp
  have hnd : ((groupItems items).map Prod.fst).Nodup := by
    rw [hkeys]
    exact (dedupFA_spec _ []).2
  refine ⟨hnd, hkeys, fun c ns hmem => ?_, ?_⟩
  · have hl := mem_lookupNs_of_nodup _ hnd c ns hmem
    have hg := groupItemsAux_lookup_getD items [] c
    rw [show groupItemsAux [] items = groupItems items from rfl, hl] at hg
    simpa [lookupNs] using hg
  · rw [groupItems, groupItemsAux_total]
    simp

end CatAudit
